import Mathlib

/-!
Verification of the congestion classification and run-length engine of
`noc_kpi_dashboard.py`.

The engine works on a dataframe that the script sorts by `date` before any
computation (line 48), so every `List MetricRow` below models the already
date-sorted frame.  Machine floats of the `prb` column are modelled as `ℚ`.
-/

namespace NocKpi

/-- One input measurement row (the columns the engine reads after renaming,
lines 35-45 of the source).  `date` is an ordinal day, `prb` the PRB
utilisation percentage. -/
structure MetricRow where
  date : Nat
  site : String
  sector : String
  prb : ℚ
deriving DecidableEq

/-- The composite grouping key `["site", "sector"]` used by the groupby
calls (lines 99 and 163). -/
def keyOf (r : MetricRow) : String × String := (r.site, r.sector)

/-- `classify` of lines 83-89: `"Congested"` when `prb >= threshold`,
`"Warning"` when `prb >= threshold - 15`, else `"Normal"`.  The source reads
`threshold` from the enclosing scope; here it is the second argument. -/
def classify (prb threshold : ℚ) : String :=
  if threshold ≤ prb then "Congested"
  else if threshold - 15 ≤ prb then "Warning"
  else "Normal"

/-- Line 96: `df["congested_flag"] = df["prb"] >= threshold`. -/
def congestedFlag (threshold : ℚ) (r : MetricRow) : Bool :=
  threshold ≤ r.prb

/-- Inclusive running sum starting from accumulator `acc`
(pandas `Series.cumsum`). -/
def cumsumFrom (acc : Nat) : List Nat → List Nat
  | [] => []
  | v :: vs => (acc + v) :: cumsumFrom (acc + v) vs

/-- pandas `Series.cumsum` (inclusive). -/
def cumsum (vs : List Nat) : List Nat := cumsumFrom 0 vs

/-- pandas `groupby(keys).cumcount` with the keys already seen in `seen`:
each position gets the number of earlier positions carrying the same key. -/
def cumcountFrom (seen : List Nat) : List Nat → List Nat
  | [] => []
  | k :: ks => seen.count k :: cumcountFrom (k :: seen) ks

/-- pandas `x.groupby(keys).cumcount()`: position of each element within
its key group, counting from 0. -/
def cumcount (keys : List Nat) : List Nat := cumcountFrom [] keys

/-- The transform of lines 98-101 applied to one (site, sector) group's
boolean series `x`:  `x * (x.groupby((~x).cumsum()).cumcount() + 1)`.
`(~x)` as integers is `fun b => if b then 0 else 1`, and multiplying by the
boolean `x` maps `false` rows to 0. -/
def transformConsecutive (x : List Bool) : List Nat :=
  (x.zip (cumcount (cumsum (x.map fun b => if b then 0 else 1)))).map
    fun p => if p.1 then p.2 + 1 else 0

/-- Stateful characterisation of `transformConsecutive`: a scan whose counter
is bumped on `true` and reset to **1** (not 0) on `false`, because the false
row itself occupies position 0 of the new cumcount group. -/
def codeScan (c : Nat) : List Bool → List Nat
  | [] => []
  | b :: bs => if b then (c + 1) :: codeScan (c + 1) bs else 0 :: codeScan 1 bs

/-- The consecutive-run computation as the specification words it
(operation `computeConsecutiveRuns`, and the algorithm sentence of C1):
walk the sequence with a counter `c` starting at 0; a `true` row increments
`c` and receives it, a `false` row resets `c` to 0 and receives 0.  Stated
separately from `transformConsecutive` so the two can be compared. -/
def specScanFrom (c : Nat) : List Bool → List Nat
  | [] => []
  | b :: bs => if b then (c + 1) :: specScanFrom (c + 1) bs else 0 :: specScanFrom 0 bs

/-- The specification's consecutive sequence for one sorted partition. -/
def specScan (x : List Bool) : List Nat := specScanFrom 0 x

lemma count_eq_zero_of_forall_le {seen : List Nat} {acc : Nat}
    (h : ∀ k ∈ seen, k ≤ acc) : seen.count (acc + 1) = 0 := by
  rw [List.count_eq_zero]
  intro hmem
  exact absurd (h _ hmem) (by omega)

lemma transform_eq_codeScan_aux :
    ∀ (x : List Bool) (acc : Nat) (seen : List Nat), (∀ k ∈ seen, k ≤ acc) →
    (x.zip (cumcountFrom seen (cumsumFrom acc (x.map fun b => if b then 0 else 1)))).map
        (fun p => if p.1 then p.2 + 1 else 0)
      = codeScan (seen.count acc) x := by
  intro x
  induction x with
  | nil => intro acc seen _; rfl
  | cons b bs ih =>
    intro acc seen hseen
    cases b with
    | true =>
      simp only [List.map_cons, if_true, cumsumFrom, Nat.add_zero, cumcountFrom,
        List.zip_cons_cons, codeScan, if_true]
      refine congrArg (fun l => (seen.count acc + 1) :: l) ?_
      have h2 : ∀ k ∈ acc :: seen, k ≤ acc := by
        intro k hk
        rcases List.mem_cons.mp hk with h | h
        · omega
        · exact hseen k h
      have := ih acc (acc :: seen) h2
      rwa [List.count_cons_self] at this
    | false =>
      simp only [List.map_cons, if_false, cumsumFrom, cumcountFrom,
        List.zip_cons_cons, codeScan]
      refine congrArg (fun l => 0 :: l) ?_
      have h2 : ∀ k ∈ (acc + 1) :: seen, k ≤ acc + 1 := by
        intro k hk
        rcases List.mem_cons.mp hk with h | h
        · omega
        · exact Nat.le_succ_of_le (hseen k h)
      have := ih (acc + 1) ((acc + 1) :: seen) h2
      rwa [List.count_cons_self, count_eq_zero_of_forall_le hseen] at this

/-- The columnar expression of lines 98-101 equals the reset-to-1 scan. -/
lemma transform_eq_codeScan (x : List Bool) :
    transformConsecutive x = codeScan 0 x := by
  have := transform_eq_codeScan_aux x 0 [] (by intro k hk; cases hk)
  simpa [transformConsecutive, cumcount, cumsum] using this

lemma codeScan_length : ∀ (x : List Bool) (c : Nat), (codeScan c x).length = x.length := by
  intro x
  induction x with
  | nil => intro c; rfl
  | cons b bs ih =>
    intro c
    cases b <;> simp [codeScan, ih]

/-- Counter value after scanning a prefix. -/
def endState (c : Nat) : List Bool → Nat
  | [] => c
  | b :: bs => endState (if b then c + 1 else 1) bs

lemma codeScan_append : ∀ (l1 l2 : List Bool) (c : Nat),
    codeScan c (l1 ++ l2) = codeScan c l1 ++ codeScan (endState c l1) l2 := by
  intro l1
  induction l1 with
  | nil => intro l2 c; rfl
  | cons b bs ih =>
    intro l2 c
    cases b <;> simp [codeScan, endState, ih]

lemma codeScan_replicate_true : ∀ (k c : Nat),
    codeScan c (List.replicate k true) = (List.range k).map fun j => c + 1 + j := by
  intro k
  induction k with
  | zero => intro c; rfl
  | succ n ih =>
    intro c
    rw [List.replicate_succ, List.range_succ_eq_map]
    simp only [codeScan, if_true, List.map_cons, Nat.add_zero, List.map_map]
    rw [ih (c + 1)]
    refine congrArg (fun l => (c + 1) :: l) (List.map_congr_left ?_)
    intro a _
    simp [Function.comp]
    omega

lemma endState_replicate_true : ∀ (k c : Nat),
    endState c (List.replicate k true) = c + k := by
  intro k
  induction k with
  | zero => intro c; rfl
  | succ n ih =>
    intro c
    rw [List.replicate_succ]
    simp only [endState, if_true]
    rw [ih (c + 1)]
    omega

lemma codeScan_getD_of_false : ∀ (x : List Bool) (c i : Nat),
    x.getD i true = false → (codeScan c x).getD i 0 = 0 := by
  intro x
  induction x with
  | nil => intro c i h; simp at h
  | cons b bs ih =>
    intro c i h
    cases i with
    | zero =>
      simp only [List.getD_cons_zero] at h
      subst h
      rfl
    | succ n =>
      simp only [List.getD_cons_succ] at h
      cases b
      · rw [show codeScan c (false :: bs) = 0 :: codeScan 1 bs from rfl,
          List.getD_cons_succ]
        exact ih 1 n h
      · rw [show codeScan c (true :: bs) = (c + 1) :: codeScan (c + 1) bs from rfl,
          List.getD_cons_succ]
        exact ih (c + 1) n h

lemma codeScan_getD_pos : ∀ (x : List Bool) (c i : Nat),
    x.getD i false = true → 1 ≤ (codeScan c x).getD i 0 := by
  intro x
  induction x with
  | nil => intro c i h; simp at h
  | cons b bs ih =>
    intro c i h
    cases i with
    | zero =>
      simp only [List.getD_cons_zero] at h
      subst h
      simp [codeScan]
    | succ n =>
      simp only [List.getD_cons_succ] at h
      cases b
      · rw [show codeScan c (false :: bs) = 0 :: codeScan 1 bs from rfl,
          List.getD_cons_succ]
        exact ih 1 n h
      · rw [show codeScan c (true :: bs) = (c + 1) :: codeScan (c + 1) bs from rfl,
          List.getD_cons_succ]
        exact ih (c + 1) n h

lemma codeScan_getD_step : ∀ (x : List Bool) (c i : Nat),
    x.getD i false = true → x.getD (i + 1) false = true →
    (codeScan c x).getD (i + 1) 0 = (codeScan c x).getD i 0 + 1 := by
  intro x
  induction x with
  | nil => intro c i h _; simp at h
  | cons b bs ih =>
    intro c i h h1
    cases i with
    | zero =>
      simp only [List.getD_cons_zero] at h
      subst h
      simp only [List.getD_cons_succ] at h1
      cases bs with
      | nil => simp at h1
      | cons b2 bs2 =>
        simp only [List.getD_cons_zero] at h1
        subst h1
        simp [codeScan]
    | succ n =>
      simp only [List.getD_cons_succ] at h h1
      cases b
      · rw [show codeScan c (false :: bs) = 0 :: codeScan 1 bs from rfl,
          List.getD_cons_succ, List.getD_cons_succ]
        exact ih 1 n h h1
      · rw [show codeScan c (true :: bs) = (c + 1) :: codeScan (c + 1) bs from rfl,
          List.getD_cons_succ, List.getD_cons_succ]
        exact ih (c + 1) n h h1

/-- **C1** (code_bug evidence).  On the chronologically sorted flag sequence
`[t,t,f,t,t,t]` the source's groupby/cumcount expression produces
`[1,2,0,2,3,4]`, while the specified counter walk produces `[1,2,0,1,2,3]`:
the code does not implement the claimed reset-to-0 scan. -/
theorem consecutive_transform_diverges_from_spec_scan :
    transformConsecutive [true, true, false, true, true, true] = [1, 2, 0, 2, 3, 4] ∧
    specScan [true, true, false, true, true, true] = [1, 2, 0, 1, 2, 3] ∧
    transformConsecutive [true, true, false, true, true, true] ≠
      specScan [true, true, false, true, true, true] := by
  refine ⟨by decide, by decide, by decide⟩

/-- **C6**.  In the code's per-partition consecutive computation, every row
with a false flag receives 0, and along two neighbouring rows of an unbroken
true run the value increases by one, hence is monotonically non-decreasing
within any unbroken true run. -/
theorem consecutive_monotone_in_run_and_reset (x : List Bool) (i : Nat) :
    (x.getD i true = false → (transformConsecutive x).getD i 0 = 0) ∧
    (x.getD i false = true → x.getD (i + 1) false = true →
      (transformConsecutive x).getD i 0 ≤ (transformConsecutive x).getD (i + 1) 0) := by
  rw [transform_eq_codeScan]
  refine ⟨fun h => codeScan_getD_of_false x 0 i h, fun h h1 => ?_⟩
  rw [codeScan_getD_step x 0 i h h1]
  omega

/-- Witness for `consecutive_monotone_in_run_and_reset` at `x = [f,t,t]`:
the false row gets 0, and the run values at positions 1 and 2 are ordered. -/
theorem consecutive_monotone_in_run_and_reset_witness :
    (transformConsecutive [false, true, true]).getD 0 0 = 0 ∧
    (transformConsecutive [false, true, true]).getD 1 0 ≤
      (transformConsecutive [false, true, true]).getD 2 0 :=
  ⟨(consecutive_monotone_in_run_and_reset [false, true, true] 0).1 (by decide),
   (consecutive_monotone_in_run_and_reset [false, true, true] 1).2 (by decide) (by decide)⟩

/-- **C8**.  A maximal true run of length `k` that opens its (site, sector)
partition is valued `1, 2, ..., k`, while a maximal true run of length `k`
immediately preceded by a false row inside the partition is valued
`2, 3, ..., k + 1`: the false row sits at cumcount position 0 of the group
opened by `(~x).cumsum()`. -/
theorem run_values_start_vs_after_false (pre rest rest2 : List Bool) (k : Nat)
    (_hmax : rest.head? ≠ some true) (_hmax2 : rest2.head? ≠ some true) :
    (transformConsecutive (List.replicate k true ++ rest)).take k
      = (List.range k).map (fun j => j + 1) ∧
    ((transformConsecutive (pre ++ false :: (List.replicate k true ++ rest2))).drop
        (pre.length + 1)).take k
      = (List.range k).map (fun j => j + 2) := by
  constructor
  · rw [transform_eq_codeScan, codeScan_append, codeScan_replicate_true]
    rw [List.take_append_of_le_length (by simp)]
    rw [List.take_of_length_le (by simp)]
    refine List.map_congr_left ?_
    intro a _
    omega
  · rw [transform_eq_codeScan, codeScan_append]
    rw [show codeScan (endState 0 pre) (false :: (List.replicate k true ++ rest2))
        = 0 :: codeScan 1 (List.replicate k true ++ rest2) from rfl]
    have h1 : codeScan 0 pre ++ 0 :: codeScan 1 (List.replicate k true ++ rest2)
        = (codeScan 0 pre ++ [0]) ++ codeScan 1 (List.replicate k true ++ rest2) := by
      simp
    have h2 : (codeScan 0 pre ++ [0]).length = pre.length + 1 := by
      simp [codeScan_length]
    rw [h1, ← h2, List.drop_left]
    rw [codeScan_append, codeScan_replicate_true]
    rw [List.take_append_of_le_length (by simp)]
    rw [List.take_of_length_le (by simp)]
    refine List.map_congr_left ?_
    intro a _
    omega

/-- Witness for `run_values_start_vs_after_false` with `pre = []`,
`rest = [false]`, `rest2 = []`, `k = 2`. -/
theorem run_values_start_vs_after_false_witness :
    (transformConsecutive (List.replicate 2 true ++ [false])).take 2
      = (List.range 2).map (fun j => j + 1) ∧
    ((transformConsecutive (([] : List Bool) ++ false :: (List.replicate 2 true ++ []))).drop
        ((List.nil : List Bool).length + 1)).take 2
      = (List.range 2).map (fun j => j + 2) :=
  run_values_start_vs_after_false [] [false] [] 2 (by decide) (by decide)

/-- A row augmented with the derived columns of lines 91-101:
`status`, `congested_flag` and `consecutive`. -/
structure ClassifiedRow where
  row : MetricRow
  status : String
  congested_flag : Bool
  consecutive : Nat
deriving DecidableEq

/-- The `consecutive` column (lines 98-101): the groupby/transform applies
`transformConsecutive` to each (site, sector) group's flag series and writes
the result back aligned with the original positions.  Row `i` therefore
receives the entry of its group's transform at the rank of `i` inside the
group, i.e. at the number of earlier rows sharing its key. -/
def consecutiveField (threshold : ℚ) (rows : List MetricRow) : List Nat :=
  rows.enum.map fun p =>
    (transformConsecutive
        ((rows.filter fun r => keyOf r = keyOf p.2).map (congestedFlag threshold))).getD
      ((rows.take p.1).filter fun r => keyOf r = keyOf p.2).length 0

/-- Lines 91-101 together: every row gets `status` (line 91),
`congested_flag` (line 96) and `consecutive` (lines 98-101). -/
def computeEngine (threshold : ℚ) (rows : List MetricRow) : List ClassifiedRow :=
  (rows.zip (consecutiveField threshold rows)).map fun p =>
    { row := p.1
      status := classify p.1.prb threshold
      congested_flag := congestedFlag threshold p.1
      consecutive := p.2 }

/-- Line 103: `major_alarm = df[df["consecutive"] >= consecutive_days_required]`. -/
def major_alarm (rows : List ClassifiedRow) (consecutive_days_required : Nat) :
    List ClassifiedRow :=
  rows.filter fun r => consecutive_days_required ≤ r.consecutive

/-- Lines 161-167: keep the rows with `prb >= threshold`, group by
(site, sector), take each group's size, and sort descending by that size.
`insertionSort` stands in for the unspecified tie order of `sort_values`. -/
def ranking (threshold : ℚ) (rows : List MetricRow) : List (String × String × Nat) :=
  let congested := rows.filter fun r => threshold ≤ r.prb
  let keys := (congested.map keyOf).dedup
  List.insertionSort (fun a b => b.2.2 ≤ a.2.2)
    (keys.map fun k => (k.1, k.2, (congested.filter fun r => keyOf r = k).length))

/-- **C3**.  `classify` is total with the claimed case split and boundaries:
at or above the threshold `"Congested"`, within 15 points below it
`"Warning"`, strictly below that `"Normal"`; always exactly one of the
three. -/
theorem classify_total_and_boundaries (prb threshold : ℚ) :
    (threshold ≤ prb → classify prb threshold = "Congested") ∧
    (threshold - 15 ≤ prb → prb < threshold → classify prb threshold = "Warning") ∧
    (prb < threshold - 15 → classify prb threshold = "Normal") ∧
    (classify prb threshold = "Congested" ∨ classify prb threshold = "Warning" ∨
      classify prb threshold = "Normal") := by
  unfold classify
  by_cases h1 : threshold ≤ prb
  · simp only [if_pos h1]
    refine ⟨fun _ => trivial, fun _ h => absurd h1 (not_le.mpr h), fun h => ?_,
      Or.inl trivial⟩
    exact absurd h1 (not_le.mpr (lt_of_lt_of_le h (by linarith)))
  · simp only [if_neg h1]
    by_cases h2 : threshold - 15 ≤ prb
    · simp only [if_pos h2]
      exact ⟨fun h => absurd h h1, fun _ _ => trivial, fun h => absurd h (not_lt.mpr h2),
        Or.inr (Or.inl trivial)⟩
    · simp only [if_neg h2]
      exact ⟨fun h => absurd h h1, fun h _ => absurd h h2, fun _ => trivial,
        Or.inr (Or.inr trivial)⟩

/-- Witness for `classify_total_and_boundaries`: each branch at threshold 85,
including both boundaries. -/
theorem classify_total_and_boundaries_witness :
    classify 85 85 = "Congested" ∧ classify 70 85 = "Warning" ∧
    classify 69 85 = "Normal" :=
  ⟨(classify_total_and_boundaries 85 85).1 (by norm_num),
   (classify_total_and_boundaries 70 85).2.1 (by norm_num) (by norm_num),
   (classify_total_and_boundaries 69 85).2.2.1 (by norm_num)⟩

/-- **C9**.  For every row the engine produces, `congested_flag` holds
exactly when `status = "Congested"`, and the flag is false exactly when the
status is `"Warning"` or `"Normal"`: both columns come from the same
comparison `prb >= threshold`. -/
theorem status_flag_consistent (threshold : ℚ) (rows : List MetricRow) :
    ∀ r ∈ computeEngine threshold rows,
      (r.congested_flag = true ↔ r.status = "Congested") ∧
      ((r.status = "Warning" ∨ r.status = "Normal") ↔ r.congested_flag = false) := by
  intro r hr
  rcases List.mem_map.mp hr with ⟨p, _, hp⟩
  subst hp
  simp only [congestedFlag, classify]
  by_cases h1 : threshold ≤ p.1.prb
  · simp only [if_pos h1, decide_eq_true h1]
    refine ⟨by simp, ?_⟩
    constructor
    · rintro (h | h) <;> simp_all
    · simp
  · simp only [if_neg h1, decide_eq_false h1]
    by_cases h2 : threshold - 15 ≤ p.1.prb <;> simp [h2]

/-- Witness for `status_flag_consistent`: the row produced from site "X"
with PRB 90 at threshold 85. -/
theorem status_flag_consistent_witness :
    ((⟨⟨0, "X", "1", 90⟩, "Congested", true, 1⟩ : ClassifiedRow).congested_flag = true ↔
      (⟨⟨0, "X", "1", 90⟩, "Congested", true, 1⟩ : ClassifiedRow).status = "Congested") ∧
    (((⟨⟨0, "X", "1", 90⟩, "Congested", true, 1⟩ : ClassifiedRow).status = "Warning" ∨
        (⟨⟨0, "X", "1", 90⟩, "Congested", true, 1⟩ : ClassifiedRow).status = "Normal") ↔
      (⟨⟨0, "X", "1", 90⟩, "Congested", true, 1⟩ : ClassifiedRow).congested_flag = false) :=
  status_flag_consistent 85 [⟨0, "X", "1", 90⟩]
    ⟨⟨0, "X", "1", 90⟩, "Congested", true, 1⟩ (by decide)

/-- **C7**.  On an empty row collection every engine operation yields an
empty result, for any threshold and any consecutive-days parameter. -/
theorem empty_input_all_empty (threshold : ℚ) (consecutive_days_required : Nat) :
    computeEngine threshold [] = [] ∧
    major_alarm [] consecutive_days_required = [] ∧
    ranking threshold [] = [] ∧
    ([] : List MetricRow).map (fun r => classify r.prb threshold) = [] := by
  exact ⟨rfl, rfl, rfl, rfl⟩

/-- The rows of the spec's concrete scenario: site "X", sector "1", PRB
values 80, 90, 92, 60, 95 on five consecutive days. -/
def scenarioRows : List MetricRow :=
  [⟨0, "X", "1", 80⟩, ⟨1, "X", "1", 90⟩, ⟨2, "X", "1", 92⟩,
   ⟨3, "X", "1", 60⟩, ⟨4, "X", "1", 95⟩]

/-- **C2** (code_bug evidence).  On the scenario rows with threshold 85 the
engine does produce `congested_flag = [F,T,T,F,T]`, but the `consecutive`
column is `[0,2,3,0,2]` rather than the claimed `[0,1,2,0,1]`, and the
major-alarm filter with `consecutive_days_required = 2` keeps three rows
rather than zero. -/
theorem scenario_siteX_divergence :
    ((computeEngine 85 scenarioRows).map fun r => r.congested_flag)
      = [false, true, true, false, true] ∧
    ((computeEngine 85 scenarioRows).map fun r => r.consecutive) = [0, 2, 3, 0, 2] ∧
    ((computeEngine 85 scenarioRows).map fun r => r.consecutive) ≠ [0, 1, 2, 0, 1] ∧
    (major_alarm (computeEngine 85 scenarioRows) 2).length = 3 := by
  refine ⟨by decide, by decide, by decide, by decide⟩

lemma length_filter_take (p : MetricRow → Bool) :
    ∀ (l : List MetricRow) (i : Nat) (h : i < l.length), p l[i] = true →
    ((l.take i).filter p).length < (l.filter p).length ∧
    ∀ d : MetricRow, (l.filter p).getD ((l.take i).filter p).length d = l[i] := by
  intro l
  induction l with
  | nil => intro i h; simp at h
  | cons a l ih =>
    intro i h hp
    cases i with
    | zero =>
      simp only [List.getElem_cons_zero] at hp
      simp [List.filter_cons, hp]
    | succ n =>
      simp only [List.getElem_cons_succ] at hp
      have hn : n < l.length := by simpa using h
      obtain ⟨ih1, ih2⟩ := ih n hn hp
      by_cases ha : p a = true
      · simp only [List.take_succ_cons, List.filter_cons, ha, if_pos]
        constructor
        · simpa using ih1
        · intro d
          simpa using ih2 d
      · have ha' : p a = false := by simpa using ha
        simp only [List.take_succ_cons, List.filter_cons, ha']
        exact ⟨ih1, ih2⟩

lemma consecutiveField_length (threshold : ℚ) (rows : List MetricRow) :
    (consecutiveField threshold rows).length = rows.length := by
  simp [consecutiveField]

lemma consecutiveField_getD (threshold : ℚ) (rows : List MetricRow) (i : Nat)
    (h : i < rows.length) :
    (consecutiveField threshold rows).getD i 0
      = (transformConsecutive
            ((rows.filter fun r => keyOf r = keyOf rows[i]).map
              (congestedFlag threshold))).getD
          ((rows.take i).filter fun r => keyOf r = keyOf rows[i]).length 0 := by
  rw [List.getD_eq_getElem _ _ (by rw [consecutiveField_length]; exact h)]
  simp [consecutiveField, List.getElem_enum]

/-- Positivity of a row's `consecutive` entry is exactly its flag. -/
lemma consecutiveField_pos_iff (threshold : ℚ) (rows : List MetricRow) (i : Nat)
    (h : i < rows.length) :
    1 ≤ (consecutiveField threshold rows).getD i 0 ↔
      congestedFlag threshold rows[i] = true := by
  rw [consecutiveField_getD threshold rows i h]
  have hp : (fun r => decide (keyOf r = keyOf rows[i])) rows[i] = true := by simp
  obtain ⟨hlt, hget⟩ := length_filter_take (fun r => decide (keyOf r = keyOf rows[i])) rows i h hp
  set q := rows.filter fun r => decide (keyOf r = keyOf rows[i]) with hq
  set rank := ((rows.take i).filter fun r => decide (keyOf r = keyOf rows[i])).length with hrank
  have hrankq : rank < (q.map (congestedFlag threshold)).length := by
    simpa using hlt
  have hqlen : rank < q.length := by simpa using hrankq
  have hqget : q.getD rank rows[i] = rows[i] := hget rows[i]
  have hflag : (q.map (congestedFlag threshold)).getD rank false
      = congestedFlag threshold rows[i] := by
    rw [List.getD_eq_getElem _ _ hrankq, List.getElem_map]
    rw [List.getD_eq_getElem _ _ hqlen] at hqget
    rw [hqget]
  rw [transform_eq_codeScan]
  constructor
  · intro hge
    by_contra hcf
    have hcf' : congestedFlag threshold rows[i] = false := by
      simpa using hcf
    have : (q.map (congestedFlag threshold)).getD rank true = false := by
      rw [List.getD_eq_getElem _ _ hrankq]
      rw [List.getD_eq_getElem _ _ hrankq] at hflag
      rw [hflag, hcf']
    have := codeScan_getD_of_false (q.map (congestedFlag threshold)) 0 rank this
    omega
  · intro hcf
    exact codeScan_getD_pos (q.map (congestedFlag threshold)) 0 rank (hflag.trans hcf)

lemma computeEngine_length (threshold : ℚ) (rows : List MetricRow) :
    (computeEngine threshold rows).length = rows.length := by
  simp [computeEngine, consecutiveField_length]

lemma computeEngine_getD (threshold : ℚ) (rows : List MetricRow) (i : Nat)
    (h : i < rows.length) (dflt : ClassifiedRow) :
    (computeEngine threshold rows).getD i dflt
      = { row := rows[i]
          status := classify rows[i].prb threshold
          congested_flag := congestedFlag threshold rows[i]
          consecutive := (consecutiveField threshold rows).getD i 0 } := by
  rw [List.getD_eq_getElem _ _ (by rw [computeEngine_length]; exact h)]
  rw [List.getD_eq_getElem _ _ (by rw [consecutiveField_length]; exact h)]
  simp [computeEngine, List.getElem_zip]

/-- **C4**.  `major_alarm` keeps exactly the rows whose `consecutive` is at
least the required number of days, leaving them unmodified, and with
`consecutive_days_required = 1` its output on the engine's rows is exactly
the rows whose `congested_flag` is true. -/
theorem major_alarm_filter_spec (crows : List ClassifiedRow) (rows : List MetricRow)
    (threshold : ℚ) (k : Nat) :
    (∀ r, r ∈ major_alarm crows k ↔ r ∈ crows ∧ k ≤ r.consecutive) ∧
    major_alarm (computeEngine threshold rows) 1
      = (computeEngine threshold rows).filter fun r => r.congested_flag := by
  constructor
  · intro r
    simp [major_alarm, List.mem_filter]
  · refine List.filter_congr ?_
    intro r hr
    rcases List.mem_iff_getElem.mp hr with ⟨i, hi, hri⟩
    have hilen : i < rows.length := by
      rwa [computeEngine_length] at hi
    have hgd : (computeEngine threshold rows).getD i r = r := by
      rw [List.getD_eq_getElem _ _ hi]
      exact hri
    have hr' := computeEngine_getD threshold rows i hilen r
    rw [hgd] at hr'
    rw [hr']
    have hiff := consecutiveField_pos_iff threshold rows i hilen
    dsimp only
    cases hfl : congestedFlag threshold rows[i]
    · rw [hfl] at hiff
      refine decide_eq_false fun hge => ?_
      exact absurd (hiff.mp hge) (by simp)
    · rw [hfl] at hiff
      exact decide_eq_true (hiff.mpr rfl)

/-- Witness for `major_alarm_filter_spec` on the one-row engine output for
site "X" with PRB 90 and threshold 85. -/
theorem major_alarm_filter_spec_witness :
    ((⟨⟨0, "X", "1", 90⟩, "Congested", true, 1⟩ : ClassifiedRow) ∈
        major_alarm (computeEngine 85 [⟨0, "X", "1", 90⟩]) 1 ↔
      (⟨⟨0, "X", "1", 90⟩, "Congested", true, 1⟩ : ClassifiedRow) ∈
          computeEngine 85 [⟨0, "X", "1", 90⟩] ∧
        1 ≤ (⟨⟨0, "X", "1", 90⟩, "Congested", true, 1⟩ : ClassifiedRow).consecutive) ∧
    major_alarm (computeEngine 85 [⟨0, "X", "1", 90⟩]) 1
      = (computeEngine 85 [⟨0, "X", "1", 90⟩]).filter fun r => r.congested_flag :=
  ⟨(major_alarm_filter_spec (computeEngine 85 [⟨0, "X", "1", 90⟩])
        [⟨0, "X", "1", 90⟩] 85 1).1 ⟨⟨0, "X", "1", 90⟩, "Congested", true, 1⟩,
   (major_alarm_filter_spec (computeEngine 85 [⟨0, "X", "1", 90⟩])
        [⟨0, "X", "1", 90⟩] 85 1).2⟩

instance : IsTotal (String × String × Nat) fun a b => b.2.2 ≤ a.2.2 :=
  ⟨fun a b => Nat.le_total b.2.2 a.2.2⟩

instance : IsTrans (String × String × Nat) fun a b => b.2.2 ≤ a.2.2 :=
  ⟨fun _ _ _ hab hbc => le_trans hbc hab⟩

/-- Rows realising the congestion counts `{(A,1): 3, (B,2): 5}` of the
spec's ranking example, with one sub-threshold row added. -/
def rankExampleRows : List MetricRow :=
  [⟨0, "A", "1", 90⟩, ⟨0, "B", "2", 95⟩, ⟨1, "A", "1", 91⟩, ⟨1, "B", "2", 96⟩,
   ⟨2, "A", "1", 92⟩, ⟨2, "B", "2", 97⟩, ⟨3, "B", "2", 98⟩, ⟨4, "B", "2", 99⟩,
   ⟨5, "A", "1", 50⟩]

/-- **C5**.  The ranking is sorted descending by count, every listed count is
the number of at-threshold rows of its (site, sector) pair, and on input with
congestion counts `{(A,1): 3, (B,2): 5}` it returns `[(B,2,5), (A,1,3)]`. -/
theorem ranking_sorted_counts_example (threshold : ℚ) (rows : List MetricRow) :
    List.Sorted (fun a b => b.2.2 ≤ a.2.2) (ranking threshold rows) ∧
    (∀ e ∈ ranking threshold rows,
      e.2.2 = ((rows.filter fun r => threshold ≤ r.prb).filter
          fun r => keyOf r = (e.1, e.2.1)).length) ∧
    (∀ r ∈ rows, threshold ≤ r.prb →
      ∃ c, (r.site, r.sector, c) ∈ ranking threshold rows) ∧
    ranking 85 rankExampleRows = [("B", "2", 5), ("A", "1", 3)] := by
  refine ⟨List.sorted_insertionSort _ _, ?_, ?_, by decide⟩
  · intro e he
    rw [ranking, List.mem_insertionSort] at he
    rcases List.mem_map.mp he with ⟨k, _, hk⟩
    subst hk
    rfl
  · intro r hr hprb
    refine ⟨((rows.filter fun x => threshold ≤ x.prb).filter
        fun x => keyOf x = keyOf r).length, ?_⟩
    rw [ranking, List.mem_insertionSort]
    have hrc : r ∈ rows.filter fun x => threshold ≤ x.prb :=
      List.mem_filter.mpr ⟨hr, by simpa using hprb⟩
    have hkmem : keyOf r ∈ ((rows.filter fun x => threshold ≤ x.prb).map keyOf).dedup :=
      List.mem_dedup.mpr (List.mem_map.mpr ⟨r, hrc, rfl⟩)
    exact List.mem_map.mpr ⟨keyOf r, hkmem, rfl⟩

/-- Witness for `ranking_sorted_counts_example`: the count listed for
("B", "2") in the example really is the number of its at-threshold rows. -/
theorem ranking_sorted_counts_example_witness :
    ("B", "2", 5).2.2 = ((rankExampleRows.filter fun r => (85 : ℚ) ≤ r.prb).filter
        fun r => keyOf r = (("B", "2", 5).1, ("B", "2", 5).2.1)).length :=
  (ranking_sorted_counts_example 85 rankExampleRows).2.1 ("B", "2", 5) (by decide)

lemma filter_key_length_eq_count (l : List MetricRow) (k : String × String) :
    (l.filter fun r => keyOf r = k).length
      = @List.count _ instBEqOfDecidableEq k (l.map keyOf) := by
  induction l with
  | nil => rfl
  | cons a l ih =>
    by_cases h : keyOf a = k <;>
      simp [List.filter_cons, List.count_cons, h, ih, instBEqOfDecidableEq]

/-- **C10**.  Every pair listed by the ranking has count at least 1, every
listed pair has at least one row at or above the threshold, and the counts
sum to the total number of rows at or above the threshold (so absent pairs
are omitted rather than listed with 0). -/
theorem ranking_counts_positive_complete (threshold : ℚ) (rows : List MetricRow) :
    (∀ e ∈ ranking threshold rows, 1 ≤ e.2.2) ∧
    (∀ s sec c, (s, sec, c) ∈ ranking threshold rows →
      ∃ r ∈ rows, keyOf r = (s, sec) ∧ threshold ≤ r.prb) ∧
    ((ranking threshold rows).map fun e => e.2.2).sum
      = (rows.filter fun r => threshold ≤ r.prb).length := by
  refine ⟨?_, ?_, ?_⟩
  · intro e he
    rw [ranking, List.mem_insertionSort] at he
    rcases List.mem_map.mp he with ⟨k, hkmem, hk⟩
    subst hk
    rcases List.mem_map.mp (List.mem_dedup.mp hkmem) with ⟨r, hr, hrk⟩
    have : r ∈ (rows.filter fun r => threshold ≤ r.prb).filter fun x => keyOf x = k :=
      List.mem_filter.mpr ⟨hr, by simp [hrk]⟩
    have hpos : 0 < ((rows.filter fun r => threshold ≤ r.prb).filter
        fun x => keyOf x = k).length := List.length_pos.mpr (List.ne_nil_of_mem this)
    exact hpos
  · intro s sec c hmem
    rw [ranking, List.mem_insertionSort] at hmem
    rcases List.mem_map.mp hmem with ⟨k, hkmem, hk⟩
    have hks : k = (s, sec) := by
      have h1 : k.1 = s := congrArg Prod.fst hk
      have h2 : k.2 = sec := congrArg Prod.fst (congrArg Prod.snd hk)
      exact Prod.ext h1 h2
    subst hks
    rcases List.mem_map.mp (List.mem_dedup.mp hkmem) with ⟨r, hr, hrk⟩
    rcases List.mem_filter.mp hr with ⟨hrmem, hrprb⟩
    exact ⟨r, hrmem, hrk, by simpa using hrprb⟩
  · rw [ranking]
    have hperm : (List.insertionSort (fun a b => b.2.2 ≤ a.2.2)
          (((rows.filter fun r => threshold ≤ r.prb).map keyOf).dedup.map
            fun k => (k.1, k.2,
              ((rows.filter fun r => threshold ≤ r.prb).filter fun r => keyOf r = k).length))).Perm
        (((rows.filter fun r => threshold ≤ r.prb).map keyOf).dedup.map
            fun k => (k.1, k.2,
              ((rows.filter fun r => threshold ≤ r.prb).filter fun r => keyOf r = k).length)) :=
      List.perm_insertionSort _ _
    rw [(hperm.map fun e => e.2.2).sum_eq, List.map_map]
    have hcomp : ((fun e : String × String × Nat => e.2.2) ∘
          fun k : String × String => (k.1, k.2,
            ((rows.filter fun r => threshold ≤ r.prb).filter fun r => keyOf r = k).length))
        = fun k => @List.count _ instBEqOfDecidableEq k
            ((rows.filter fun r => threshold ≤ r.prb).map keyOf) := by
      funext k
      exact filter_key_length_eq_count _ k
    rw [hcomp]
    have := List.sum_map_count_dedup_eq_length ((rows.filter fun r => threshold ≤ r.prb).map keyOf)
    rw [this, List.length_map]

/-- Witness for `ranking_counts_positive_complete` on the ranking example:
the listed pair ("A", "1") has a positive count and a congested row. -/
theorem ranking_counts_positive_complete_witness :
    (1 ≤ (("A", "1", 3) : String × String × Nat).2.2) ∧
    (∃ r ∈ rankExampleRows, keyOf r = ("A", "1") ∧ (85 : ℚ) ≤ r.prb) :=
  ⟨(ranking_counts_positive_complete 85 rankExampleRows).1 ("A", "1", 3) (by decide),
   (ranking_counts_positive_complete 85 rankExampleRows).2.1 "A" "1" 3 (by decide)⟩

end NocKpi
